import Mathlib

/-!
Verification of the fan-out/fan-in reduction engine (package gist7651991)
and of the `go/format` wrapper, against their natural-language specification.

The Go sources are shallowly embedded:
 * `ProcessLinesFromReader` (part_000 lines 9-14) becomes a pure function on
   `List Char` built on an embedding of `bufio.Reader.ReadString('\n')`;
 * the `GoReduce` / `GoReduceLinesFromReader` engine (part_000 lines 16-82)
   becomes a small-step transition system over an explicit engine state
   (workers, rendezvous queues, WaitGroup counter);
 * a single worker goroutine body, with Go `defer` semantics, is embedded
   separately to settle the reducer-failure claim;
 * `format.Source`'s source-fragment branch and `format.Node` (format.go)
   are embedded with the external parser/printer kept abstract, since
   `go/parser` and `go/printer` are not part of this repository.
-/

namespace Gist7651991

/-- Embedding of `br.ReadString('\n')` as used at part_000 line 11: returns the
data read up to and including the first newline, the remaining stream, and the
`err == nil` flag. When the stream ends before a newline is found, the data
read so far is returned with a non-nil error (`false` here), exactly as
`bufio.Reader.ReadString` reports data together with the error it hit. -/
def readString : List Char → List Char × List Char × Bool
  | [] => ([], [], false)
  | c :: rest =>
    if c = '\n' then ([c], rest, true)
    else (c :: (readString rest).1, (readString rest).2.1, (readString rest).2.2)

theorem readString_rest_lt (s : List Char) (h : (readString s).2.2 = true) :
    (readString s).2.1.length < s.length := by
  induction s with
  | nil => simp [readString] at h
  | cons c cs ih =>
    by_cases hc : c = '\n'
    · simp [readString, hc]
    · simp only [readString, if_neg hc] at h ⊢
      exact Nat.lt_succ_of_lt (ih h)

theorem readString_lt (s line rest : List Char)
    (h : readString s = (line, rest, true)) : rest.length < s.length := by
  have hh : (readString s).2.2 = true := by rw [h]
  have := readString_rest_lt s hh
  rwa [h] at this

/-- Embedding of `ProcessLinesFromReader` (part_000 lines 9-14): the loop
`for line, err := br.ReadString('\n'); err == nil; ...` collects, in stream
order, each delimiter-terminated line with its trailing newline removed
(`line[:len(line)-1]`), and stops at the first non-nil error. The returned
list is the sequence of arguments passed to `processFunc`. -/
def processLinesFromReader (s : List Char) : List (List Char) :=
  match h : readString s with
  | (line, rest, true) => line.dropLast :: processLinesFromReader rest
  | (_, _, false) => []
termination_by s.length
decreasing_by exact readString_lt s line rest h

theorem processLinesFromReader_ok {s line rest : List Char}
    (h : readString s = (line, rest, true)) :
    processLinesFromReader s = line.dropLast :: processLinesFromReader rest := by
  rw [processLinesFromReader.eq_def]
  split
  · rename_i l r heq
    rw [h] at heq
    injection heq with h1 h2
    injection h2 with h2 h3
    subst h1; subst h2
    rfl
  · rename_i l r heq
    rw [h] at heq
    injection heq with h1 h2
    injection h2 with h2 h3
    exact absurd h3.symm (by simp)

theorem processLinesFromReader_err {s line rest : List Char}
    (h : readString s = (line, rest, false)) :
    processLinesFromReader s = [] := by
  rw [processLinesFromReader.eq_def]
  split
  · rename_i l r heq
    rw [h] at heq
    injection heq with h1 h2
    injection h2 with h2 h3
    exact absurd h3 (by simp)
  · rfl

theorem readString_of_not_mem {s : List Char} (h : '\n' ∉ s) :
    readString s = (s, [], false) := by
  induction s with
  | nil => rfl
  | cons c cs ih =>
    have hc : ¬ c = '\n' := fun hc => h (hc ▸ List.mem_cons_self c cs)
    have hcs : '\n' ∉ cs := fun hm => h (List.mem_cons_of_mem c hm)
    simp [readString, hc, ih hcs]

theorem readString_append {p r : List Char} (hp : '\n' ∉ p) :
    readString (p ++ '\n' :: r) = (p ++ ['\n'], r, true) := by
  induction p with
  | nil => simp [readString]
  | cons c cs ih =>
    have hc : ¬ c = '\n' := fun hc => hp (hc ▸ List.mem_cons_self c cs)
    have hcs : '\n' ∉ cs := fun hm => hp (List.mem_cons_of_mem c hm)
    simp [readString, hc, ih hcs]

theorem splitOn_of_not_mem {s : List Char} (h : '\n' ∉ s) :
    s.splitOn '\n' = [s] := by
  induction s with
  | nil => rfl
  | cons c cs ih =>
    have hc : ¬ c = '\n' := fun hc => h (hc ▸ List.mem_cons_self c cs)
    have hc' : ¬ '\n' = c := fun hh => hc hh.symm
    have hcs : '\n' ∉ cs := fun hm => h (List.mem_cons_of_mem c hm)
    simp only [List.splitOn] at ih ⊢
    rw [List.splitOnP_cons]
    simp only [beq_iff_eq, hc, hc', if_false, ih hcs]
    rfl

theorem splitOn_first {p r : List Char} (hp : '\n' ∉ p) :
    (p ++ '\n' :: r).splitOn '\n' = p :: r.splitOn '\n' := by
  induction p with
  | nil =>
    simp only [List.nil_append, List.splitOn]
    rw [List.splitOnP_cons]
    simp
  | cons c cs ih =>
    have hc : ¬ c = '\n' := fun hc => hp (hc ▸ List.mem_cons_self c cs)
    have hc' : ¬ '\n' = c := fun hh => hc hh.symm
    have hcs : '\n' ∉ cs := fun hm => hp (List.mem_cons_of_mem c hm)
    simp only [List.splitOn] at ih ⊢
    rw [List.cons_append, List.splitOnP_cons]
    simp only [beq_iff_eq, hc, hc', if_false, ih hcs]
    rfl

theorem exists_first_newline (s : List Char) :
    '\n' ∉ s ∨ ∃ p r, s = p ++ '\n' :: r ∧ '\n' ∉ p := by
  induction s with
  | nil => exact Or.inl (by simp)
  | cons c cs ih =>
    by_cases hc : c = '\n'
    · exact Or.inr ⟨[], cs, by simp [hc], by simp⟩
    · rcases ih with h | ⟨p, r, rfl, hp⟩
      · exact Or.inl (by simp [h]; exact fun hh => hc hh.symm)
      · exact Or.inr ⟨c :: p, r, rfl, by simp [hp]; exact fun hh => hc hh.symm⟩

theorem dropLast_cons_ne_nil {α : Type} (a : α) {l : List α} (h : l ≠ []) :
    (a :: l).dropLast = a :: l.dropLast := by
  cases l with
  | nil => exact absurd rfl h
  | cons b bs => rfl

/-- C5: for every byte stream, `ProcessLinesFromReader` delivers to the
callback exactly the delimiter-terminated lines of the stream, with the
trailing newline stripped, in stream order: the callback-argument sequence is
the split of the stream on the newline delimiter with its final (unterminated
or empty) segment removed. -/
theorem processLines_eq_splitOn_dropLast (s : List Char) :
    processLinesFromReader s = (s.splitOn '\n').dropLast := by
  have H : ∀ (n : Nat) (s : List Char), s.length = n →
      processLinesFromReader s = (s.splitOn '\n').dropLast := by
    intro n
    induction n using Nat.strong_induction_on with
    | _ n ih =>
      intro s hn
      rcases exists_first_newline s with hno | ⟨p, r, rfl, hp⟩
      · rw [processLinesFromReader_err (readString_of_not_mem hno),
          splitOn_of_not_mem hno]
        rfl
      · rw [processLinesFromReader_ok (readString_append hp), splitOn_first hp]
        have hr : r.length < n := by
          subst hn
          simp [List.length_append]
          omega
        rw [ih r.length hr r rfl]
        have hnn : r.splitOn '\n' ≠ [] := by
          simp only [List.splitOn]
          exact List.splitOnP_ne_nil _ r
        rw [dropLast_cons_ne_nil p hnn]
        simp
  exact H s.length s rfl

/-- C6: a final line lacking the trailing newline delimiter is not delivered:
for a stream made of newline-terminated lines `ls` followed by a nonempty
newline-free tail `t`, `ProcessLinesFromReader` delivers exactly `ls` — the
unterminated tail never reaches the callback. -/
theorem processLines_drops_unterminated (ls : List (List Char)) (t : List Char)
    (hls : ∀ l ∈ ls, '\n' ∉ l) (ht : '\n' ∉ t) (_hne : t ≠ []) :
    processLinesFromReader ((ls.map (fun l => l ++ ['\n'])).flatten ++ t) = ls := by
  induction ls with
  | nil =>
    simp only [List.map_nil, List.flatten_nil, List.nil_append]
    exact processLinesFromReader_err (readString_of_not_mem ht)
  | cons l ls ih =>
    have hl : '\n' ∉ l := hls l (List.mem_cons_self l ls)
    have hrest : ∀ x ∈ ls, '\n' ∉ x := fun x hx => hls x (List.mem_cons_of_mem l hx)
    have harr : (((l :: ls).map (fun l => l ++ ['\n'])).flatten ++ t)
        = l ++ '\n' :: ((ls.map (fun l => l ++ ['\n'])).flatten ++ t) := by
      simp
    rw [harr, processLinesFromReader_ok (readString_append hl), ih hrest]
    simp

/-- Closed witness for C6 at a concrete stream: the stream "a\nb" has one
terminated line "a" and an unterminated tail "b"; only "a" is delivered. -/
theorem processLines_drops_unterminated_witness :
    processLinesFromReader ((([['a']].map (fun l => l ++ ['\n'])).flatten) ++ ['b'])
      = [['a']] :=
  processLines_drops_unterminated [['a']] ['b']
    (by intro l hl; simp at hl; subst hl; decide) (by decide) (by decide)

/-- Go error values as seen by the line loop: clean end-of-stream (`io.EOF`)
or a read failure from the underlying reader, identified by a code. -/
inductive GoErr where
  | eof
  | readFailure (code : Nat)

/-- `ReadString('\n')` over a stream that delivers the bytes `s` and then
terminates with `τ` (clean end-of-stream or a read error): data up to and
including the first newline is returned with `err = none`; once the stream is
exhausted before a delimiter, the data read so far is returned together with
the terminal condition `τ` as the error, exactly as `bufio` surfaces the first
underlying read error only after buffered data is consumed. -/
def readStringE (τ : GoErr) : List Char → List Char × List Char × Option GoErr
  | [] => ([], [], some τ)
  | c :: rest =>
    if c = '\n' then ([c], rest, none)
    else (c :: (readStringE τ rest).1, (readStringE τ rest).2.1,
      (readStringE τ rest).2.2)

theorem readStringE_eq (τ : GoErr) : ∀ s : List Char,
    (readStringE τ s).1 = (readString s).1 ∧
    (readStringE τ s).2.1 = (readString s).2.1 ∧
    ((readStringE τ s).2.2 = none ↔ (readString s).2.2 = true) := by
  intro s
  induction s with
  | nil => simp [readStringE, readString]
  | cons c cs ih =>
    by_cases hc : c = '\n'
    · simp [readStringE, readString, hc]
    · simpa [readStringE, readString, hc] using ih

theorem readStringE_rest_lt (τ : GoErr) (s : List Char)
    (h : (readStringE τ s).2.2 = none) : (readStringE τ s).2.1.length < s.length := by
  obtain ⟨-, h2, h3⟩ := readStringE_eq τ s
  rw [h2]
  exact readString_rest_lt s (h3.mp h)

theorem readStringE_lt (τ : GoErr) (s line rest : List Char)
    (h : readStringE τ s = (line, rest, none)) : rest.length < s.length := by
  have hh : (readStringE τ s).2.2 = none := by rw [h]
  have := readStringE_rest_lt τ s hh
  rwa [h] at this

/-- Embedding of the `ProcessLinesFromReader` loop run against a stream that
ends in terminal condition `τ`: the loop condition is `err == nil`, so any
non-nil error — clean end-of-stream and read failure alike — stops line
production. The function returns only the delivered lines: no error and no
other signal is surfaced to the caller. -/
def processLinesE (τ : GoErr) (s : List Char) : List (List Char) :=
  match h : readStringE τ s with
  | (line, rest, none) => line.dropLast :: processLinesE τ rest
  | (_, _, some _) => []
termination_by s.length
decreasing_by exact readStringE_lt τ s line rest h

theorem processLinesE_ok {τ : GoErr} {s line rest : List Char}
    (h : readStringE τ s = (line, rest, none)) :
    processLinesE τ s = line.dropLast :: processLinesE τ rest := by
  rw [processLinesE.eq_def]
  split
  · rename_i l r heq
    rw [h] at heq
    injection heq with h1 h2
    injection h2 with h2 h3
    subst h1; subst h2
    rfl
  · rename_i e l r heq
    rw [h] at heq
    injection heq with h1 h2
    injection h2 with h2 h3
    exact absurd h3.symm (by simp)

theorem processLinesE_err {τ : GoErr} {s line rest : List Char} {e : GoErr}
    (h : readStringE τ s = (line, rest, some e)) :
    processLinesE τ s = [] := by
  rw [processLinesE.eq_def]
  split
  · rename_i l r heq
    rw [h] at heq
    injection heq with h1 h2
    injection h2 with h2 h3
    exact absurd h3 (by simp)
  · rfl

/-- C7: line production stops at end-of-stream or at the first read error and
treats the two identically: for every byte stream and every terminal condition
(clean EOF or any read failure), the delivered lines are exactly those of the
error-free embedding, and no distinct signal is surfaced — a read failure is
indistinguishable from clean end-of-stream to the caller. -/
theorem processLinesE_indistinguishable (τ : GoErr) (s : List Char) :
    processLinesE τ s = processLinesFromReader s := by
  have H : ∀ (n : Nat) (s : List Char), s.length = n →
      processLinesE τ s = processLinesFromReader s := by
    intro n
    induction n using Nat.strong_induction_on with
    | _ n ih =>
      intro s hn
      obtain ⟨h1, h2, h3⟩ := readStringE_eq τ s
      rcases hp : readString s with ⟨line, rest, ok⟩
      rcases hq : readStringE τ s with ⟨lineE, restE, errE⟩
      rw [hp, hq] at h1 h2 h3
      simp only at h1 h2 h3
      rw [h1, h2] at hq
      cases ok with
      | false =>
        rw [processLinesFromReader_err hp]
        have : ∃ e, errE = some e := by
          cases errE with
          | none => exact absurd (h3.mp rfl) (by simp)
          | some e => exact ⟨e, rfl⟩
        obtain ⟨e, rfl⟩ := this
        exact processLinesE_err hq
      | true =>
        rw [processLinesFromReader_ok hp]
        have herr : errE = none := h3.mpr rfl
        subst herr
        have hlt : rest.length < n := hn ▸ readString_lt s line rest hp
        rw [processLinesE_ok hq, ih rest.length hlt rest rfl]
  exact H s.length s rfl

/-- Outcome of one invocation of the caller-supplied reducer: a normal return
(with `none` standing for Go `nil`, an absent result) or an unrecovered
panic identified by a code. -/
inductive RedOutcome (β : Type) where
  | ok (out : Option β)
  | fault (code : Nat)

/-- The worker loop of part_000 lines 29-37 / 63-73, run over the sequence of
items this worker receives from `inChan`: each item is passed to `reduceFunc`;
a `nil` result is skipped, a non-nil result is sent to `outChan` (collected
here in order); the loop contains no recover boundary, so the first panicking
invocation stops the loop and the panic keeps propagating. Returns the
delivered results together with the propagating fault, if any. -/
def workerLoop {α β : Type} (reduce : α → RedOutcome β) : List α → List β × Option Nat
  | [] => ([], none)
  | a :: rest =>
    match reduce a with
    | RedOutcome.fault c => ([], some c)
    | RedOutcome.ok none => workerLoop reduce rest
    | RedOutcome.ok (some b) =>
      (b :: (workerLoop reduce rest).1, (workerLoop reduce rest).2)

/-- What one worker goroutine leaves behind when it exits. -/
structure WorkerExit (β : Type) where
  delivered : List β
  fault : Option Nat
  doneCalled : Bool

/-- The whole worker goroutine body `func() { defer wg.Done(); for { ... } }`
(part_000 lines 27-38 and 61-74). By the Go specification a deferred call runs
both when the surrounding function returns normally and when it is exiting
because of a panic, so the `defer wg.Done()` of lines 28/62 executes on every
exit path: `doneCalled` is true on the normal path and on the fault path
alike, while an uncaught fault keeps propagating out of the goroutine. -/
def workerRun {α β : Type} (reduce : α → RedOutcome β) (items : List α) :
    WorkerExit β :=
  { delivered := (workerLoop reduce items).1
    fault := (workerLoop reduce items).2
    doneCalled := true }

/-- Counterexample to C3 as stated: at this concrete input the reducer panics
on item `0`; the fault does propagate out of the worker uncaught, yet the
deferred `wg.Done()` still runs on the panic path, so the WaitGroup decrement
is not skipped — refuting the claim that the failure escapes "without
decrementing the CompletionCounter's accounting in a safe way". -/
theorem workerRun_fault_cex :
    (workerRun (fun n : Nat =>
        if n = 0 then RedOutcome.fault 7 else RedOutcome.ok (some n)) [0]).fault
        = some 7 ∧
    (workerRun (fun n : Nat =>
        if n = 0 then RedOutcome.fault 7 else RedOutcome.ok (some n)) [0]).doneCalled
        = true :=
  ⟨rfl, rfl⟩

/-- C3 (amended): a failure inside a `reduce` invocation is not caught by the
worker loop — it surfaces as the worker's propagating fault exactly when some
item is reached whose reduction panics, every item before it reducing without
fault — but the deferred `wg.Done()` still executes on the panic path, so the
worker's WaitGroup decrement fires on every exit path and the Completion
Coordinator is not left waiting for this worker's decrement (the unrecovered
panic instead takes down the whole process). -/
theorem workerRun_defer_signals {α β : Type} (reduce : α → RedOutcome β)
    (items : List α) :
    (workerRun reduce items).doneCalled = true ∧
    (∀ c, (workerRun reduce items).fault = some c ↔
      ∃ pre a post, items = pre ++ a :: post ∧
        (∀ x ∈ pre, ∀ d, reduce x ≠ RedOutcome.fault d) ∧
        reduce a = RedOutcome.fault c) := by
  refine ⟨rfl, ?_⟩
  intro c
  show (workerLoop reduce items).2 = some c ↔ _
  induction items with
  | nil => simp [workerLoop]
  | cons a rest ih =>
    cases hr : reduce a with
    | fault d =>
      simp only [workerLoop, hr]
      constructor
      · intro h
        injection h with h
        exact ⟨[], a, rest, rfl, by simp, h ▸ hr⟩
      · rintro ⟨pre, x, post, hdec, hclean, hx⟩
        cases pre with
        | nil =>
          simp at hdec
          obtain ⟨h1, -⟩ := hdec
          rw [← h1, hr] at hx
          injection hx with hx
          rw [hx]
        | cons p pre' =>
          simp at hdec
          obtain ⟨h1, -⟩ := hdec
          exact absurd (h1 ▸ hr) (hclean p (by simp) d)
    | ok o =>
      have hsame : (workerLoop reduce (a :: rest)).2 = (workerLoop reduce rest).2 := by
        cases o with
        | none => simp [workerLoop, hr]
        | some b => simp [workerLoop, hr]
      rw [hsame, ih]
      constructor
      · rintro ⟨pre, x, post, rfl, hclean, hx⟩
        refine ⟨a :: pre, x, post, rfl, ?_, hx⟩
        intro y hy d
        rcases List.mem_cons.mp hy with rfl | hy'
        · rw [hr]; intro hcon; injection hcon
        · exact hclean y hy' d
      · rintro ⟨pre, x, post, hdec, hclean, hx⟩
        cases pre with
        | nil =>
          simp at hdec
          obtain ⟨h1, -⟩ := hdec
          rw [← h1, hr] at hx
          injection hx
        | cons p pre' =>
          simp at hdec
          obtain ⟨-, h2⟩ := hdec
          refine ⟨pre', x, post, h2, ?_, hx⟩
          intro y hy d
          exact hclean y (List.mem_cons_of_mem p hy) d

/-- The whitespace class of format.go line 241-243: space, tab, newline or
carriage return. -/
def isSpace (b : Char) : Bool :=
  b = ' ' || b = '\t' || b = '\n' || b = '\r'

/-- The leading-space scan of `Source` (format.go lines 103-111), returning
the two slices the indices `i` and `j` delimit: `src[:i]`, the leading
whitespace up to and including its last newline (`i` is bumped to `j+1` at
every newline met), and `src[i:j]`, the whitespace of the first code line
(between the last newline of the leading run and the first non-space byte). -/
def leadSplit : List Char → List Char × List Char
  | [] => ([], [])
  | c :: rest =>
    if isSpace c then
      if c = '\n' then (c :: (leadSplit rest).1, (leadSplit rest).2)
      else
        if (leadSplit rest).1 = [] then ([], c :: (leadSplit rest).2)
        else (c :: (leadSplit rest).1, (leadSplit rest).2)
    else ([], [])

/-- The indentation scan of `Source` (format.go lines 116-125) over the first
code line's leading whitespace: counts tabs and records whether a space was
seen (the accumulation is order-independent, so this right fold computes what
the Go left-to-right range loop computes). -/
def indentScan : List Char → Nat × Bool
  | [] => (0, false)
  | b :: rest =>
    if b = '\t' then ((indentScan rest).1 + 1, (indentScan rest).2)
    else if b = ' ' then ((indentScan rest).1, true)
    else indentScan rest

/-- The indent amount of `Source` (format.go lines 116-127): the tab count of
the first code line's leading whitespace, except that spaces with no tabs
count as a single tab. -/
def indentCalc (seg : List Char) : Nat :=
  if (indentScan seg).1 = 0 ∧ (indentScan seg).2 = true then 1
  else (indentScan seg).1

/-- The downward scan of `Source` (format.go lines 145-147): called with
`src.length`, returns the byte offset of the trailing whitespace run
(`i` is decremented while `src[i-1]` is a space). -/
def trailStart (src : List Char) : Nat → Nat
  | 0 => 0
  | i + 1 => if isSpace (src.getD i ' ') then trailStart src i else i + 1

/-- `bytes.TrimSpace` as invoked by the two `adjust` closures (format.go
lines 199 and 229), over the space class of this model. -/
def trimSpace (l : List Char) : List Char :=
  ((l.dropWhile isSpace).reverse.dropWhile isSpace).reverse

/-- The fragment branch of `Source` (format.go lines 101-149): prepend the
kept leading space `src[:i]`, then the computed indent as tabs, then the
formatted body — `inner` stands for the bytes the external printer and the
`adjust` slicing produce, to which `adjust` applies its final
`bytes.TrimSpace` — then append the trailing space of `src`. The external
`go/printer` is not part of this repository, so `inner` is abstract. -/
def sourceFrag (src inner : List Char) : List Char :=
  (leadSplit src).1 ++ List.replicate (indentCalc (leadSplit src).2) '\t'
    ++ trimSpace inner ++ src.drop (trailStart src src.length)

/-- Outcome of `parse` (format.go lines 175-239): a complete source file, a
fragment (declaration list or statement list, with `inner` the abstract
printed-and-sliced body of the wrapped file, see `sourceFrag`), or a parse
error. -/
inductive ParseRes (A : Type) where
  | complete (f : A)
  | fragment (f : A) (inner : List Char)
  | failed

/-- `Source` (format.go lines 83-153) over an abstract syntax-tree type `A`:
on a complete source file it sorts imports (`ast.SortImports`, line 93) and
prints; on a fragment it runs the fragment branch, which never invokes
the sorting of imports; on a parse error it fails. The external parser and
printer are parameters. -/
def SourceGo (A : Type) (sortImp : A → A) (printW : A → List Char)
    (res : ParseRes A) (src : List Char) : Option (List Char) :=
  match res with
  | ParseRes.failed => none
  | ParseRes.complete f => some (printW (sortImp f))
  | ParseRes.fragment _ inner => some (sourceFrag src inner)

/-- Leading whitespace of the input, as the spec words it: the maximal leading
run of space characters. -/
def specLeadWs (src : List Char) : List Char :=
  src.takeWhile isSpace

/-- The part of the leading whitespace up to and including its last line
break. -/
def specLead (src : List Char) : List Char :=
  (((src.takeWhile isSpace).reverse).dropWhile (fun c => c != '\n')).reverse

/-- The whitespace of the first code line: the part of the leading whitespace
after its last line break. -/
def specSeg (src : List Char) : List Char :=
  (((src.takeWhile isSpace).reverse).takeWhile (fun c => c != '\n')).reverse

/-- The indent amount the spec promises: the tab count of the first code
line's indentation, with spaces-only indentation counting as one tab. -/
def specIndent (src : List Char) : Nat :=
  if (specSeg src).count '\t' = 0 ∧ (specSeg src).any (fun c => c == ' ') = true
  then 1 else (specSeg src).count '\t'

/-- Trailing whitespace of the input: the maximal trailing run of space
characters. -/
def specTrail (src : List Char) : List Char :=
  (src.reverse.takeWhile isSpace).reverse

theorem dropWhile_concat {α : Type} [DecidableEq α] (p : α → Bool)
    (l : List α) (c : α) :
    List.dropWhile p (l ++ [c]) =
      if List.dropWhile p l = [] then List.dropWhile p [c]
      else List.dropWhile p l ++ [c] := by
  induction l with
  | nil => simp
  | cons a l ih =>
    by_cases ha : p a = true
    · simp [List.dropWhile_cons, ha, ih]
    · simp [List.dropWhile_cons, ha]

theorem takeWhile_concat {α : Type} [DecidableEq α] (p : α → Bool)
    (l : List α) (c : α) :
    List.takeWhile p (l ++ [c]) =
      if List.dropWhile p l = [] then l ++ List.takeWhile p [c]
      else List.takeWhile p l := by
  induction l with
  | nil => simp
  | cons a l ih =>
    by_cases hE : List.dropWhile p l = []
    · by_cases ha : p a = true
      · simp [List.takeWhile_cons, List.dropWhile_cons, ha, hE, ih]
      · simp [List.takeWhile_cons, List.dropWhile_cons, ha, hE]
    · by_cases ha : p a = true
      · simp [List.takeWhile_cons, List.dropWhile_cons, ha, hE, ih]
      · simp [List.takeWhile_cons, List.dropWhile_cons, ha, hE]

theorem takeWhile_eq_self_of {α : Type} {p : α → Bool} {l : List α}
    (h : List.dropWhile p l = []) : List.takeWhile p l = l := by
  induction l with
  | nil => rfl
  | cons a l ih =>
    by_cases ha : p a = true
    · simp only [List.dropWhile_cons, ha, if_true] at h
      simp [List.takeWhile_cons, ha, ih h]
    · simp [List.dropWhile_cons, ha] at h

theorem leadSplit_eq (src : List Char) :
    leadSplit src = (specLead src, specSeg src) := by
  induction src with
  | nil => rfl
  | cons c rest ih =>
    by_cases hs : isSpace c = true
    · have hw : List.takeWhile isSpace (c :: rest) =
          c :: List.takeWhile isSpace rest := by
        simp [List.takeWhile_cons, hs]
      by_cases hn : c = '\n'
      · have hpc : (c != '\n') = false := by simp [hn]
        have hL : specLead (c :: rest) = c :: specLead rest := by
          rw [specLead, specLead, hw, List.reverse_cons, dropWhile_concat]
          split
          · rename_i hE
            simp [List.dropWhile_cons, hpc, hE]
          · simp
        have hS : specSeg (c :: rest) = specSeg rest := by
          rw [specSeg, specSeg, hw, List.reverse_cons, takeWhile_concat]
          split
          · rename_i hE
            simp [List.takeWhile_cons, hpc, takeWhile_eq_self_of hE]
          · rfl
        subst hn
        simp [leadSplit, hs, ih, hL, hS]
      · have hpc : (c != '\n') = true := by simp [hn]
        by_cases hE : List.dropWhile (fun x => x != '\n')
            (List.takeWhile isSpace rest).reverse = []
        · have h1 : specLead rest = [] := by
            rw [specLead, hE, List.reverse_nil]
          have hL : specLead (c :: rest) = [] := by
            rw [specLead, hw, List.reverse_cons, dropWhile_concat, if_pos hE]
            simp [List.dropWhile_cons, hpc]
          have hS : specSeg (c :: rest) = c :: specSeg rest := by
            rw [specSeg, specSeg, hw, List.reverse_cons, takeWhile_concat,
              if_pos hE]
            simp [List.takeWhile_cons, hpc, takeWhile_eq_self_of hE]
          simp [leadSplit, hs, hn, ih, h1, hL, hS]
        · have h1 : specLead rest ≠ [] := by
            rw [specLead]
            simp [hE]
          have hL : specLead (c :: rest) = c :: specLead rest := by
            rw [specLead, specLead, hw, List.reverse_cons, dropWhile_concat,
              if_neg hE]
            simp
          have hS : specSeg (c :: rest) = specSeg rest := by
            rw [specSeg, specSeg, hw, List.reverse_cons, takeWhile_concat,
              if_neg hE]
          simp [leadSplit, hs, hn, ih, h1, hL, hS]
    · have hw : List.takeWhile isSpace (c :: rest) = [] := by
        simp [List.takeWhile_cons, hs]
      simp [leadSplit, hs, specLead, specSeg, hw]

theorem trailStart_le (src : List Char) : ∀ i, trailStart src i ≤ i := by
  intro i
  induction i with
  | zero => simp [trailStart]
  | succ i ih =>
    rw [trailStart]
    split
    · exact Nat.le_succ_of_le ih
    · exact Nat.le_refl _

theorem trailStart_agree (xs : List Char) (x : Char) :
    ∀ i, i ≤ xs.length → trailStart (xs ++ [x]) i = trailStart xs i := by
  intro i
  induction i with
  | zero => intro hi; rfl
  | succ i ih =>
    intro hi
    have hlt : i < xs.length := hi
    have hg : (xs ++ [x]).getD i ' ' = xs.getD i ' ' :=
      List.getD_append xs [x] ' ' i hlt
    rw [trailStart, trailStart, hg, ih (Nat.le_of_lt hlt)]

theorem getD_concat_length (xs : List Char) (x : Char) :
    (xs ++ [x]).getD xs.length ' ' = x := by
  rw [List.getD_append_right xs [x] ' ' xs.length (Nat.le_refl _)]
  simp

theorem trailStart_drop (src : List Char) :
    src.drop (trailStart src src.length) = specTrail src := by
  induction src using List.reverseRecOn with
  | nil => rfl
  | append_singleton xs x ih =>
    have hlen : (xs ++ [x]).length = xs.length + 1 := by simp
    by_cases hs : isSpace x
    · have h1 : trailStart (xs ++ [x]) (xs.length + 1) = trailStart xs xs.length := by
        rw [trailStart, getD_concat_length, if_pos hs,
          trailStart_agree xs x xs.length (Nat.le_refl _)]
      have h2 : trailStart xs xs.length ≤ xs.length := trailStart_le xs xs.length
      rw [hlen, h1, List.drop_append_of_le_length h2, ih, specTrail, specTrail,
        List.reverse_append]
      simp [List.takeWhile_cons, hs]
    · have h1 : trailStart (xs ++ [x]) (xs.length + 1) = xs.length + 1 := by
        rw [trailStart, getD_concat_length, if_neg hs]
      rw [hlen, h1, specTrail, List.reverse_append]
      simp [List.takeWhile_cons, hs, List.drop_append_of_le_length]

theorem indentScan_eq (seg : List Char) :
    indentScan seg = (seg.count '\t', seg.any (fun c => c == ' ')) := by
  induction seg with
  | nil => rfl
  | cons b rest ih =>
    by_cases hb : b = '\t'
    · have : ¬ (b == ' ') = true := by simp [hb]
      simp [indentScan, hb, ih, List.count_cons, List.any_cons, this]
    · by_cases hsp : b = ' '
      · simp [indentScan, hb, hsp, ih, List.count_cons, List.any_cons]
      · have h1 : ¬ (b == ' ') = true := by simp [hsp]
        have h2 : ¬ (b == '\t') = true := by simp [hb]
        simp [indentScan, hb, hsp, ih, List.count_cons, List.any_cons, h1, h2]

/-- C9 (amended): for a fragment accepted by `Source`, the result keeps the
leading whitespace of the input up to and including its last line break,
then indents the body by the first code line's amount re-expressed in tabs
(the tab count of that line's indentation, or one tab when it is indented by
spaces alone), then the trimmed formatted body, then the trailing whitespace
of the input verbatim; and the result is independent of the import-sorting
operation — imports are not sorted for fragments. -/
theorem sourceGo_fragment_shape (A : Type) (sortImp sortImp2 : A → A)
    (printW : A → List Char) (f : A) (inner src : List Char) :
    SourceGo A sortImp printW (ParseRes.fragment f inner) src
        = some (specLead src ++ List.replicate (specIndent src) '\t'
            ++ trimSpace inner ++ specTrail src) ∧
    SourceGo A sortImp printW (ParseRes.fragment f inner) src
        = SourceGo A sortImp2 printW (ParseRes.fragment f inner) src := by
  refine ⟨?_, rfl⟩
  show some (sourceFrag src inner) = _
  rw [sourceFrag, leadSplit_eq, trailStart_drop]
  have hind : indentCalc (specLead src, specSeg src).2 = specIndent src := by
    show indentCalc (specSeg src) = specIndent src
    rw [indentCalc, indentScan_eq, specIndent]
  rw [hind]

/-- Counterexample to C9 as stated: the fragment `"  x"` (two leading spaces)
formats to `"\tx"` — the leading whitespace of the result is a tab, not the
two spaces of the input, so the result does not carry the same leading
whitespace as the input. -/
theorem sourceGo_lead_ws_cex :
    SourceGo Unit id (fun _ => []) (ParseRes.fragment () ['x'])
        [' ', ' ', 'x'] = some ['\t', 'x'] ∧
    specLeadWs ['\t', 'x'] ≠ specLeadWs [' ', ' ', 'x'] := by
  constructor
  · rfl
  · decide

/-- A heap of syntax-tree objects: Go AST nodes are mutable pointer
structures, so the destructive `ast.SortImports` is modelled as a write into
a store of nodes addressed by `Nat` identities; `next` is the next fresh
address (all live objects sit below it). -/
structure Store (A : Type) where
  next : Nat
  mem : Nat → A

/-- Allocate a fresh object (what `parser.ParseFile` does when `Node`
re-parses the printed buffer): returns the fresh address and the grown
store. -/
def Store.alloc {A : Type} (st : Store A) (a : A) : Nat × Store A :=
  (st.next, ⟨st.next + 1, fun i => if i = st.next then a else st.mem i⟩)

/-- Destructively update the object at address `i` (what `ast.SortImports`
does to the file it is handed). -/
def Store.write {A : Type} (st : Store A) (i : Nat) (a : A) : Store A :=
  ⟨st.next, fun j => if j = i then a else st.mem j⟩

/-- The argument of `format.Node` (format.go lines 34-46): a complete
`*ast.File`, a `*printer.CommentedNode` wrapping a complete file, or any
other node (for which `file` stays nil and the import-sort branch is
skipped). -/
inductive NodeArg where
  | file (id : Nat)
  | commented (id : Nat)
  | other

/-- `format.Node` (format.go lines 34-72) over an abstract node type `A` held
in a store: when the file has unsorted imports, the file is printed and
re-parsed into a fresh object (lines 52-61) — "Make a copy of the AST because
ast.SortImports is destructive" — the destructive sort is applied to that
fresh copy only (line 62), and the copy is printed; otherwise the node is
printed as is. A re-parse failure returns the internal error with nothing
written. The external printer, parser and `ast.SortImports` are parameters. -/
def NodeGo (A : Type) (hasUnsorted : A → Bool) (sortImp : A → A)
    (printW : A → List Char) (printC : A → List Char)
    (reparse : List Char → Option A) (otherOut : List Char)
    (st : Store A) (node : NodeArg) : Option (List Char) × Store A :=
  match node with
  | NodeArg.other => (some otherOut, st)
  | NodeArg.file id =>
    if hasUnsorted (st.mem id) then
      match reparse (printW (st.mem id)) with
      | none => (none, st)
      | some f2 =>
        ((st.alloc f2).2.write (st.alloc f2).1
            (sortImp ((st.alloc f2).2.mem (st.alloc f2).1))).mem (st.alloc f2).1
          |> fun sorted =>
            (some (printW sorted),
              (st.alloc f2).2.write (st.alloc f2).1
                (sortImp ((st.alloc f2).2.mem (st.alloc f2).1)))
    else (some (printW (st.mem id)), st)
  | NodeArg.commented id =>
    if hasUnsorted (st.mem id) then
      match reparse (printW (st.mem id)) with
      | none => (none, st)
      | some f2 =>
        ((st.alloc f2).2.write (st.alloc f2).1
            (sortImp ((st.alloc f2).2.mem (st.alloc f2).1))).mem (st.alloc f2).1
          |> fun sorted =>
            (some (printC sorted),
              (st.alloc f2).2.write (st.alloc f2).1
                (sortImp ((st.alloc f2).2.mem (st.alloc f2).1)))
    else (some (printC (st.mem id)), st)

/-- C10: `format.Node` never mutates the node it is given — nor any other
live object: every address already allocated before the call holds the same
object after it; the destructive import sort touches only the freshly
re-parsed copy, which lives at a fresh address. -/
theorem nodeGo_frame (A : Type) (hasUnsorted : A → Bool) (sortImp : A → A)
    (printW : A → List Char) (printC : A → List Char)
    (reparse : List Char → Option A) (otherOut : List Char)
    (st : Store A) (node : NodeArg) (i : Nat) (hi : i < st.next) :
    ((NodeGo A hasUnsorted sortImp printW printC reparse otherOut st node).2).mem i
      = st.mem i := by
  have hne : i ≠ st.next := Nat.ne_of_lt hi
  cases node with
  | other => rfl
  | file id =>
    rw [NodeGo]
    split
    · cases hr : reparse (printW (st.mem id)) with
      | none => simp [hr]
      | some f2 => simp [hr, Store.alloc, Store.write, hne]
    · rfl
  | commented id =>
    rw [NodeGo]
    split
    · cases hr : reparse (printW (st.mem id)) with
      | none => simp [hr]
      | some f2 => simp [hr, Store.alloc, Store.write, hne]
    · rfl

/-- Closed witness for C10: a store holding one file with unsorted imports;
after `Node` runs (printing, re-parsing to a fresh copy and sorting the
copy), the caller's object at address 0 is unchanged. -/
theorem nodeGo_frame_witness :
    0 < (⟨1, fun _ => (42 : Nat)⟩ : Store Nat).next ∧
    ((NodeGo Nat (fun _ => true) (fun n => n + 1) (fun _ => []) (fun _ => [])
        (fun _ => some 5) [] ⟨1, fun _ => 42⟩ (NodeArg.file 0)).2).mem 0
      = (⟨1, fun _ => (42 : Nat)⟩ : Store Nat).mem 0 :=
  ⟨Nat.zero_lt_one,
    nodeGo_frame Nat (fun _ => true) (fun n => n + 1) (fun _ => []) (fun _ => [])
      (fun _ => some 5) [] ⟨1, fun _ => 42⟩ (NodeArg.file 0) 0 Nat.zero_lt_one⟩

/-- Status of one worker goroutine of the engine (part_000 lines 61-74): in
the receive loop, holding a non-nil result it must still deliver to the
output queue (blocked in `outChan <- out`), or exited for good after
observing the input queue closed and drained. -/
inductive WStatus (β : Type) where
  | running
  | sending (b : β)
  | done

/-- The status a worker takes on receiving item `a` (part_000 lines 69-72):
`reduceFunc` is applied; a nil result is not sent and the worker loops back
to receive, a non-nil result must next be sent on `outChan`. -/
def afterReduce {α β : Type} (reduce : α → Option β) (a : α) : WStatus β :=
  match reduce a with
  | none => WStatus.running
  | some b => WStatus.sending b

/-- Global state of one engine run (`GoReduce`, part_000 lines 51-82; the
engine inside `GoReduceLinesFromReader`, lines 16-48, is the same machine
with the input sequence produced by the line segmenter). `pending` holds the
items the producer has yet to push, in source order — the queues are
zero-buffer rendezvous channels, so a push and the matching receive are a
single event; `consumed` is the history of items taken by workers;
`inClosed` records `close(inChan)`; `wg` is the `sync.WaitGroup` counter
after the initial `numWorkers` `Add(1)` calls; `received` is the history of
results the single output consumer has taken, in arrival order; `coordDone`
records that the coordinator goroutine has executed its `close(outChan)` and
`closedCount` counts executions of `close(outChan)`. -/
structure EngineState (α β : Type) where
  pending : List α
  consumed : List α
  inClosed : Bool
  workers : List (WStatus β)
  wg : Nat
  received : List β
  coordDone : Bool
  closedCount : Nat

/-- Whether a worker has terminated. -/
def isDone {β : Type} : WStatus β → Bool
  | WStatus.done => true
  | _ => false

/-- The result a worker has accepted and not yet delivered, if any. -/
def heldOf {β : Type} : WStatus β → Option β
  | WStatus.sending b => some b
  | _ => none

/-- All results accepted by workers and not yet delivered. -/
def held {β : Type} (ws : List (WStatus β)) : List β := ws.filterMap heldOf

/-- The number of workers that have not terminated — what the WaitGroup
counter counts. -/
def nonDone {β : Type} (ws : List (WStatus β)) : Nat :=
  (ws.filter (fun w => ! isDone w)).length

/-- One interleaving step of the engine of part_000 lines 51-82. `recv` is a
rendezvous on `inChan`: the producer pushes the next item and a running
worker receives it and applies `reduceFunc` (lines 64-72); `send` is a
rendezvous on `outChan`: the single consumer takes the result a worker is
sending (line 71); `exitWorker` is a worker observing `inChan` closed and
empty and returning, its deferred `wg.Done()` decrementing the counter
(lines 62-67); `closeIn` is the producer's `close(inChan)` after its last
push (line 42, or the caller's close per the contract on line 50); and
`closeOut` is the coordinator goroutine passing `wg.Wait()` when the counter
is zero and executing its single `close(outChan)` (lines 77-78). -/
inductive Step {α β : Type} (reduce : α → Option β) :
    EngineState α β → EngineState α β → Prop where
  | recv (s : EngineState α β) (l r : List (WStatus β)) (a : α) (rest : List α)
      (hw : s.workers = l ++ WStatus.running :: r)
      (hp : s.pending = a :: rest) :
      Step reduce s { s with
        pending := rest
        consumed := s.consumed ++ [a]
        workers := l ++ afterReduce reduce a :: r }
  | send (s : EngineState α β) (l r : List (WStatus β)) (b : β)
      (hw : s.workers = l ++ WStatus.sending b :: r) :
      Step reduce s { s with
        workers := l ++ WStatus.running :: r
        received := s.received ++ [b] }
  | exitWorker (s : EngineState α β) (l r : List (WStatus β))
      (hw : s.workers = l ++ WStatus.running :: r)
      (hp : s.pending = []) (hc : s.inClosed = true) :
      Step reduce s { s with
        workers := l ++ WStatus.done :: r
        wg := s.wg - 1 }
  | closeIn (s : EngineState α β) (hp : s.pending = [])
      (hc : s.inClosed = false) :
      Step reduce s { s with inClosed := true }
  | closeOut (s : EngineState α β) (hw : s.wg = 0)
      (hc : s.coordDone = false) :
      Step reduce s { s with
        coordDone := true
        closedCount := s.closedCount + 1 }

/-- The engine's start state: the producer still has the whole input to push,
`numWorkers` workers are running (lines 59-75), the WaitGroup counter is at
`numWorkers`, both channels are open and nothing has been delivered. -/
def initState {α β : Type} (input : List α) (W : Nat) : EngineState α β :=
  { pending := input
    consumed := []
    inClosed := false
    workers := List.replicate W WStatus.running
    wg := W
    received := []
    coordDone := false
    closedCount := 0 }

/-- The states one run of the engine can pass through, for a given reducer,
input sequence and worker count. -/
def Reachable {α β : Type} (reduce : α → Option β) (input : List α) (W : Nat)
    (s : EngineState α β) : Prop :=
  Relation.ReflTransGen (Step reduce) (initState input W) s

/-- The inductive invariant of the engine: the input splits into consumed
items and pending items; the worker pool never changes size; the WaitGroup
counter counts unterminated workers; a closed input queue has nothing left
to push; the output queue is closed at most once and only by the
coordinator, which requires a zero counter; the delivered results together
with the results still held by workers are a permutation of the non-absent
reductions of the consumed items; and a worker can only have exited after
the input queue was closed. -/
structure EngineInv {α β : Type} (reduce : α → Option β) (input : List α)
    (W : Nat) (s : EngineState α β) : Prop where
  split_input : s.consumed ++ s.pending = input
  workers_length : s.workers.length = W
  wg_eq : s.wg = nonDone s.workers
  closed_pending : s.inClosed = true → s.pending = []
  closed_once : s.closedCount = if s.coordDone then 1 else 0
  coord_wg : s.coordDone = true → s.wg = 0
  results : (s.received ++ held s.workers).Perm (s.consumed.filterMap reduce)
  done_closed : (∃ w ∈ s.workers, w = WStatus.done) → s.inClosed = true

theorem isDone_afterReduce {α β : Type} (reduce : α → Option β) (a : α) :
    isDone (afterReduce reduce a) = false := by
  cases h : reduce a <;> simp [afterReduce, h, isDone]

theorem afterReduce_ne_done {α β : Type} (reduce : α → Option β) (a : α) :
    afterReduce reduce a ≠ WStatus.done := by
  cases h : reduce a <;> simp [afterReduce, h]

theorem nonDone_append_cons {β : Type} (l r : List (WStatus β)) (w : WStatus β) :
    nonDone (l ++ w :: r) =
      nonDone l + (if isDone w then 0 else 1) + nonDone r := by
  by_cases hd : isDone w = true <;>
    simp [nonDone, List.filter_append, List.filter_cons, hd] <;> omega

theorem held_append_cons {β : Type} (l r : List (WStatus β)) (w : WStatus β) :
    held (l ++ w :: r) = held l ++ ((heldOf w).toList ++ held r) := by
  cases hw : heldOf w <;>
    simp [held, List.filterMap_append, List.filterMap_cons, hw]

theorem nonDone_replicate (β : Type) (W : Nat) :
    nonDone (List.replicate W (WStatus.running : WStatus β)) = W := by
  induction W with
  | zero => rfl
  | succ n ih =>
    rw [List.replicate_succ]
    have h1 : nonDone (WStatus.running :: List.replicate n (WStatus.running : WStatus β))
        = nonDone (List.replicate n (WStatus.running : WStatus β)) + 1 := by
      simp [nonDone, List.filter_cons, isDone]
    rw [h1, ih]

theorem held_replicate (β : Type) (W : Nat) :
    held (List.replicate W (WStatus.running : WStatus β)) = [] := by
  induction W with
  | zero => rfl
  | succ n ih =>
    rw [List.replicate_succ]
    have h1 : held (WStatus.running :: List.replicate n (WStatus.running : WStatus β))
        = held (List.replicate n (WStatus.running : WStatus β)) := by
      simp [held, List.filterMap_cons, heldOf]
    rw [h1, ih]

theorem perm_insert_mid {β : Type} (rec hl hr fm : List β) (b : β)
    (h : (rec ++ (hl ++ hr)).Perm fm) :
    (rec ++ (hl ++ b :: hr)).Perm (fm ++ [b]) := by
  have h1 : (rec ++ (hl ++ b :: hr)).Perm (b :: (rec ++ (hl ++ hr))) := by
    have e1 : rec ++ (hl ++ b :: hr) = (rec ++ hl) ++ b :: hr := by
      rw [List.append_assoc]
    have e2 : b :: (rec ++ (hl ++ hr)) = b :: ((rec ++ hl) ++ hr) := by
      rw [List.append_assoc]
    rw [e1, e2]
    exact List.perm_middle
  exact h1.trans ((h.cons b).trans (List.perm_append_singleton b fm).symm)

theorem perm_extract_mid {β : Type} (rec hl hr fm : List β) (b : β)
    (h : (rec ++ (hl ++ b :: hr)).Perm fm) :
    ((rec ++ [b]) ++ (hl ++ hr)).Perm fm := by
  refine List.Perm.trans ?_ h
  have h1 : ((rec ++ [b]) ++ (hl ++ hr)).Perm (b :: (rec ++ (hl ++ hr))) := by
    have e1 : (rec ++ [b]) ++ (hl ++ hr) = rec ++ b :: (hl ++ hr) := by
      rw [List.append_assoc]
      rfl
    rw [e1]
    exact List.perm_middle
  have h2 : (rec ++ (hl ++ b :: hr)).Perm (b :: (rec ++ (hl ++ hr))) := by
    have e1 : rec ++ (hl ++ b :: hr) = (rec ++ hl) ++ b :: hr := by
      rw [List.append_assoc]
    have e2 : b :: (rec ++ (hl ++ hr)) = b :: ((rec ++ hl) ++ hr) := by
      rw [List.append_assoc]
    rw [e1, e2]
    exact List.perm_middle
  exact h1.trans h2.symm

theorem eq_done_of_isDone {β : Type} {w : WStatus β} (h : isDone w = true) :
    w = WStatus.done := by
  cases w with
  | running => simp [isDone] at h
  | sending b => simp [isDone] at h
  | done => rfl

theorem held_eq_nil_of_done {β : Type} {ws : List (WStatus β)}
    (h : ∀ w ∈ ws, w = WStatus.done) : held ws = [] := by
  induction ws with
  | nil => rfl
  | cons a t ih =>
    have ha : a = WStatus.done := h a (List.mem_cons_self a t)
    subst ha
    simp only [held, List.filterMap_cons]
    have : heldOf (WStatus.done : WStatus β) = none := rfl
    rw [this]
    exact ih fun w hw => h w (List.mem_cons_of_mem _ hw)

theorem inv_init {α β : Type} (reduce : α → Option β) (input : List α)
    (W : Nat) : EngineInv reduce input W (initState input W (α := α) (β := β)) := by
  refine ⟨?_, ?_, ?_, ?_, ?_, ?_, ?_, ?_⟩
  · simp [initState]
  · simp [initState]
  · simp [initState, nonDone_replicate]
  · intro h
    simp [initState] at h
  · rfl
  · intro h
    simp [initState] at h
  · simp [initState, held_replicate]
  · rintro ⟨w, hwm, rfl⟩
    have := List.eq_of_mem_replicate (show WStatus.done ∈ _ from hwm)
    exact absurd this (by simp)

theorem inv_step {α β : Type} {reduce : α → Option β} {input : List α}
    {W : Nat} {s s' : EngineState α β} (hinv : EngineInv reduce input W s)
    (hstep : Step reduce s s') : EngineInv reduce input W s' := by
  cases hstep with
  | recv l r a rest hw hp =>
    refine ⟨?_, ?_, ?_, ?_, hinv.closed_once, hinv.coord_wg, ?_, ?_⟩
    · have h0 := hinv.split_input
      rw [hp] at h0
      rw [List.append_assoc]
      simpa using h0
    · have h0 := hinv.workers_length
      rw [hw] at h0
      simpa using h0
    · have h0 := hinv.wg_eq
      rw [hw, nonDone_append_cons] at h0
      show s.wg = nonDone (l ++ afterReduce reduce a :: r)
      rw [nonDone_append_cons, isDone_afterReduce]
      simpa [isDone] using h0
    · intro hic
      have h0 := hinv.closed_pending hic
      rw [h0] at hp
      exact absurd hp (by simp)
    · have h0 := hinv.results
      rw [hw, held_append_cons] at h0
      have hofr : heldOf (WStatus.running : WStatus β) = none := rfl
      rw [hofr] at h0
      simp only [Option.toList, List.nil_append] at h0
      show ((s.received ++ held (l ++ afterReduce reduce a :: r)).Perm
        ((s.consumed ++ [a]).filterMap reduce))
      rw [held_append_cons, List.filterMap_append]
      cases ha : reduce a with
      | none =>
        have h1 : afterReduce reduce a = WStatus.running := by
          simp [afterReduce, ha]
        have h2 : List.filterMap reduce [a] = [] := by
          simp [List.filterMap_cons, ha]
        rw [h1, hofr, h2]
        simpa using h0
      | some b =>
        have h1 : afterReduce reduce a = WStatus.sending b := by
          simp [afterReduce, ha]
        have h2 : List.filterMap reduce [a] = [b] := by
          simp [List.filterMap_cons, ha]
        have h3 : heldOf (WStatus.sending b) = some b := rfl
        rw [h1, h2, h3]
        simp only [Option.toList]
        exact perm_insert_mid _ _ _ _ b h0
    · rintro ⟨w, hwm, rfl⟩
      rcases List.mem_append.mp hwm with hin | hin
      · exact hinv.done_closed ⟨WStatus.done, by
          rw [hw]; exact List.mem_append.mpr (Or.inl hin), rfl⟩
      · rcases List.mem_cons.mp hin with he | hin
        · exact absurd he.symm (afterReduce_ne_done reduce a)
        · exact hinv.done_closed ⟨WStatus.done, by
            rw [hw]
            exact List.mem_append.mpr (Or.inr (List.mem_cons_of_mem _ hin)), rfl⟩
  | send l r b hw =>
    refine ⟨hinv.split_input, ?_, ?_, hinv.closed_pending, hinv.closed_once,
      hinv.coord_wg, ?_, ?_⟩
    · have h0 := hinv.workers_length
      rw [hw] at h0
      simpa using h0
    · have h0 := hinv.wg_eq
      rw [hw, nonDone_append_cons] at h0
      show s.wg = nonDone (l ++ WStatus.running :: r)
      rw [nonDone_append_cons]
      simpa [isDone] using h0
    · have h0 := hinv.results
      rw [hw, held_append_cons] at h0
      have h3 : heldOf (WStatus.sending b) = some b := rfl
      rw [h3] at h0
      simp only [Option.toList] at h0
      show (((s.received ++ [b]) ++ held (l ++ WStatus.running :: r)).Perm
        (s.consumed.filterMap reduce))
      rw [held_append_cons]
      have hofr : heldOf (WStatus.running : WStatus β) = none := rfl
      rw [hofr]
      simp only [Option.toList, List.nil_append]
      exact perm_extract_mid _ _ _ _ b h0
    · rintro ⟨w, hwm, rfl⟩
      rcases List.mem_append.mp hwm with hin | hin
      · exact hinv.done_closed ⟨WStatus.done, by
          rw [hw]; exact List.mem_append.mpr (Or.inl hin), rfl⟩
      · rcases List.mem_cons.mp hin with he | hin
        · exact absurd he (by simp)
        · exact hinv.done_closed ⟨WStatus.done, by
            rw [hw]
            exact List.mem_append.mpr (Or.inr (List.mem_cons_of_mem _ hin)), rfl⟩
  | exitWorker l r hw hp hc =>
    refine ⟨hinv.split_input, ?_, ?_, hinv.closed_pending, hinv.closed_once,
      ?_, ?_, fun _ => hc⟩
    · have h0 := hinv.workers_length
      rw [hw] at h0
      simpa using h0
    · have h0 := hinv.wg_eq
      rw [hw, nonDone_append_cons] at h0
      show s.wg - 1 = nonDone (l ++ WStatus.done :: r)
      rw [nonDone_append_cons]
      have e1 : isDone (WStatus.running : WStatus β) = false := rfl
      have e2 : isDone (WStatus.done : WStatus β) = true := rfl
      rw [e1] at h0
      rw [e2]
      simp at h0 ⊢
      omega
    · intro hcd
      have h0 := hinv.coord_wg hcd
      simp [h0]
    · have h0 := hinv.results
      rw [hw, held_append_cons] at h0
      have h1 : heldOf (WStatus.running : WStatus β) = none := rfl
      rw [h1] at h0
      simp only [Option.toList, List.nil_append] at h0
      show ((s.received ++ held (l ++ WStatus.done :: r)).Perm
        (s.consumed.filterMap reduce))
      rw [held_append_cons]
      have h2 : heldOf (WStatus.done : WStatus β) = none := rfl
      rw [h2]
      simpa using h0
  | closeIn hp hc =>
    exact ⟨hinv.split_input, hinv.workers_length, hinv.wg_eq, fun _ => hp,
      hinv.closed_once, hinv.coord_wg, hinv.results, fun _ => rfl⟩
  | closeOut hw hc =>
    refine ⟨hinv.split_input, hinv.workers_length, hinv.wg_eq,
      hinv.closed_pending, ?_, fun _ => hw, hinv.results, hinv.done_closed⟩
    have h0 := hinv.closed_once
    rw [hc] at h0
    simp at h0
    simp [h0]

theorem reachable_inv {α β : Type} {reduce : α → Option β} {input : List α}
    {W : Nat} {s : EngineState α β} (h : Reachable reduce input W s) :
    EngineInv reduce input W s := by
  induction h with
  | refl => exact inv_init reduce input W
  | tail _ hstep ih => exact inv_step ih hstep

theorem all_done_of_wg_zero {α β : Type} {reduce : α → Option β}
    {input : List α} {W : Nat} {s : EngineState α β}
    (hinv : EngineInv reduce input W s) (hwg : s.wg = 0) :
    ∀ w ∈ s.workers, w = WStatus.done := by
  intro w hwm
  have h0 := hinv.wg_eq
  rw [hwg] at h0
  have h1 : (s.workers.filter (fun w => ! isDone w)) = [] :=
    List.length_eq_zero.mp h0.symm
  have h2 := List.filter_eq_nil_iff.mp h1 w hwm
  simp at h2
  exact eq_done_of_isDone h2

/-- C1: in every run of the engine (`GoReduce`, or `GoReduceLinesFromReader`
run on the segmenter's lines), the output queue is closed at most once along
the way, and once the coordinator has closed it, it has been closed exactly
once, every worker has terminated, and every non-absent result accepted by a
worker has been delivered onto the output queue — the delivered results are
exactly (up to arrival order) the non-absent reductions of the consumed
items. -/
theorem goReduce_closes_once_after_completion {α β : Type}
    (reduce : α → Option β) (input : List α) (W : Nat) (s : EngineState α β)
    (h : Reachable reduce input W s) :
    s.closedCount ≤ 1 ∧
      (s.coordDone = true → s.closedCount = 1 ∧
        (∀ w ∈ s.workers, w = WStatus.done) ∧
        (↑s.received : Multiset β) = ↑(s.consumed.filterMap reduce)) := by
  have hinv := reachable_inv h
  constructor
  · rw [hinv.closed_once]
    cases s.coordDone <;> simp
  · intro hc
    have hwg : s.wg = 0 := hinv.coord_wg hc
    have hall := all_done_of_wg_zero hinv hwg
    refine ⟨?_, hall, ?_⟩
    · rw [hinv.closed_once, hc]
      simp
    · have hheld : held s.workers = [] := held_eq_nil_of_done hall
      have hperm := hinv.results
      rw [hheld, List.append_nil] at hperm
      exact Multiset.coe_eq_coe.mpr hperm

/-- C2: absent results never appear on the output stream: every value the
output consumer has received arose as a non-absent (`some`) reduction of a
consumed item; an item whose reduction is `nil` contributes nothing. -/
theorem goReduce_no_absent_results {α β : Type} (reduce : α → Option β)
    (input : List α) (W : Nat) (s : EngineState α β)
    (h : Reachable reduce input W s) :
    ∀ b ∈ s.received, ∃ a ∈ s.consumed, reduce a = some b := by
  intro b hb
  have hinv := reachable_inv h
  have hmem : b ∈ s.consumed.filterMap reduce :=
    (hinv.results.mem_iff).mp (List.mem_append.mpr (Or.inl hb))
  exact List.mem_filterMap.mp hmem

theorem goReduce_complete {α β : Type} (reduce : α → Option β)
    (input : List α) (W : Nat) (s : EngineState α β)
    (h : Reachable reduce input W s) (hW : 1 ≤ W) (hc : s.coordDone = true) :
    s.received.Perm (input.filterMap reduce) := by
  have hinv := reachable_inv h
  have hwg : s.wg = 0 := hinv.coord_wg hc
  have hall := all_done_of_wg_zero hinv hwg
  have hne : s.workers ≠ [] := by
    intro hnil
    have h0 := hinv.workers_length
    rw [hnil] at h0
    simp at h0
    omega
  obtain ⟨w, hwm⟩ := List.exists_mem_of_ne_nil s.workers hne
  have hin : s.inClosed = true := hinv.done_closed ⟨w, hwm, hall w hwm⟩
  have hpend : s.pending = [] := hinv.closed_pending hin
  have hcons : s.consumed = input := by
    have h0 := hinv.split_input
    rwa [hpend, List.append_nil] at h0
  have hheld : held s.workers = [] := held_eq_nil_of_done hall
  have hperm := hinv.results
  rwa [hheld, List.append_nil, hcons] at hperm

/-- C4: for a fixed input sequence and a reducer with no cross-item side
effects (any pure `reduce`), the multiset of results delivered by a
completed run is the same for every worker count of at least one: two
completed runs with worker counts `W₁` and `W₂` deliver the same multiset;
only the arrival order on the output stream may differ. -/
theorem goReduce_worker_count_invariant {α β : Type} (reduce : α → Option β)
    (input : List α) (W₁ W₂ : Nat) (s₁ s₂ : EngineState α β)
    (h₁ : Reachable reduce input W₁ s₁) (h₂ : Reachable reduce input W₂ s₂)
    (hW₁ : 1 ≤ W₁) (hW₂ : 1 ≤ W₂)
    (hc₁ : s₁.coordDone = true) (hc₂ : s₂.coordDone = true) :
    (↑s₁.received : Multiset β) = ↑s₂.received :=
  Multiset.coe_eq_coe.mpr
    ((goReduce_complete reduce input W₁ s₁ h₁ hW₁ hc₁).trans
      (goReduce_complete reduce input W₂ s₂ h₂ hW₂ hc₂).symm)

/-- C8: with the input queue closed after zero items, any completed run of
the engine (for any worker count of at least one) closes the output stream
having delivered zero results. -/
theorem goReduce_empty_input {α β : Type} (reduce : α → Option β) (W : Nat)
    (s : EngineState α β) (h : Reachable reduce [] W s) (hW : 1 ≤ W)
    (hc : s.coordDone = true) : s.received = [] := by
  have hperm := goReduce_complete reduce [] W s h hW hc
  simp only [List.filterMap_nil] at hperm
  exact hperm.eq_nil

/-- A complete concrete run with one worker over input `[1, 2]` and the
reducer `n ↦ some (n + 1)`: both items are consumed, both results delivered
in order, the queues closed. -/
theorem reachOneWorker : Reachable (fun n : Nat => some (n + 1)) [1, 2] 1
    ⟨[], [1, 2], true, [WStatus.done], 0, [2, 3], true, 1⟩ := by
  apply Relation.ReflTransGen.head
    (Step.recv (initState [1, 2] 1) [] [] 1 [2] rfl rfl)
  apply Relation.ReflTransGen.head (Step.send _ [] [] 2 rfl)
  apply Relation.ReflTransGen.head (Step.recv _ [] [] 2 [] rfl rfl)
  apply Relation.ReflTransGen.head (Step.send _ [] [] 3 rfl)
  apply Relation.ReflTransGen.head (Step.closeIn _ rfl rfl)
  apply Relation.ReflTransGen.head (Step.exitWorker _ [] [] rfl rfl rfl)
  apply Relation.ReflTransGen.head (Step.closeOut _ rfl rfl)
  exact Relation.ReflTransGen.refl

/-- A complete concrete run with two workers over the same input and
reducer, interleaved so that the results arrive in the opposite order. -/
theorem reachTwoWorkers : Reachable (fun n : Nat => some (n + 1)) [1, 2] 2
    ⟨[], [1, 2], true, [WStatus.done, WStatus.done], 0, [3, 2], true, 1⟩ := by
  apply Relation.ReflTransGen.head
    (Step.recv (initState [1, 2] 2) [] [WStatus.running] 1 [2] rfl rfl)
  apply Relation.ReflTransGen.head
    (Step.recv _ [WStatus.sending 2] [] 2 [] rfl rfl)
  apply Relation.ReflTransGen.head (Step.send _ [WStatus.sending 2] [] 3 rfl)
  apply Relation.ReflTransGen.head (Step.send _ [] [WStatus.running] 2 rfl)
  apply Relation.ReflTransGen.head (Step.closeIn _ rfl rfl)
  apply Relation.ReflTransGen.head
    (Step.exitWorker _ [] [WStatus.running] rfl rfl rfl)
  apply Relation.ReflTransGen.head
    (Step.exitWorker _ [WStatus.done] [] rfl rfl rfl)
  apply Relation.ReflTransGen.head (Step.closeOut _ rfl rfl)
  exact Relation.ReflTransGen.refl

/-- A complete concrete run with one worker and an empty input: the input
queue is closed at once, the worker exits, the output queue closes. -/
theorem reachEmptyInput : Reachable (fun n : Nat => some (n + 1))
    ([] : List Nat) 1 ⟨[], [], true, [WStatus.done], 0, [], true, 1⟩ := by
  apply Relation.ReflTransGen.head (Step.closeIn (initState [] 1) rfl rfl)
  apply Relation.ReflTransGen.head (Step.exitWorker _ [] [] rfl rfl rfl)
  apply Relation.ReflTransGen.head (Step.closeOut _ rfl rfl)
  exact Relation.ReflTransGen.refl

/-- Closed witness for C1 at the one-worker run: its output queue was closed
exactly once. -/
theorem goReduce_closes_once_witness :
    (⟨[], [1, 2], true, [WStatus.done], 0, [2, 3], true, 1⟩ :
      EngineState Nat Nat).closedCount = 1 :=
  ((goReduce_closes_once_after_completion (fun n => some (n + 1)) [1, 2] 1 _
    reachOneWorker).2 rfl).1

/-- Closed witness for C2 at the one-worker run: the delivered value 2 arose
from a consumed item reducing to `some 2`. -/
theorem goReduce_no_absent_witness :
    ∃ a ∈ [1, 2], (fun n : Nat => some (n + 1)) a = some 2 :=
  goReduce_no_absent_results (fun n => some (n + 1)) [1, 2] 1
    ⟨[], [1, 2], true, [WStatus.done], 0, [2, 3], true, 1⟩ reachOneWorker 2
    (by simp)

/-- Closed witness for C4: the one-worker run delivers `[2, 3]`, the
two-worker run delivers `[3, 2]`; as multisets they are equal. -/
theorem goReduce_worker_count_witness :
    (↑([2, 3] : List Nat) : Multiset Nat) = ↑([3, 2] : List Nat) :=
  goReduce_worker_count_invariant (fun n => some (n + 1)) [1, 2] 1 2 _ _
    reachOneWorker reachTwoWorkers (by decide) (by decide) rfl rfl

/-- Closed witness for C8 at the empty-input run: the closed output stream
delivered zero results. -/
theorem goReduce_empty_input_witness :
    (⟨[], [], true, [WStatus.done], 0, [], true, 1⟩ :
      EngineState Nat Nat).received = [] :=
  goReduce_empty_input (fun n => some (n + 1)) 1 _ reachEmptyInput
    (by decide) rfl

end Gist7651991
